import Mathlib

/-!
Verification of the reverse line-streaming engine and the text-search layer of
SpiderUtilLib (files `SpiderUtilLib/FileUtils.py`, `src/SpiderUtilLib/FileUtils.py`
and `src/SpiderUtilLib/SpiderUtilLib.py`).

Byte streams are modelled as `List Nat` (one `Nat` per byte; all the inputs the
claims exercise are ASCII, for which Python's text decoding is the identity on
our representation).  Python's `bytes.splitlines`, `bytes.split`, `str.rstrip`,
`str.find` and the generator `reverse_binary_stream` are translated function by
function below.
-/

namespace SpiderUtilLib

/-- CR (13) and LF (10) are the members of the implicit separator set
`(b'\r', b'\n', b'\r\n')`; a byte string starts (ends) with a member of that
tuple iff its first (last) byte is CR or LF. -/
def sepB (x : Nat) : Bool := x == 13 || x == 10

/-- `bytes.startswith((b'\r', b'\n', b'\r\n'))`: true iff the first byte is CR or LF. -/
def startsSep : List Nat → Bool
  | [] => false
  | x :: _ => sepB x

/-- `bytes.endswith((b'\r', b'\n', b'\r\n'))`: true iff the last byte is CR or LF. -/
def endsSep (l : List Nat) : Bool :=
  match l.getLast? with
  | some x => sepB x
  | none => false

/-- The piece contributed by a line separator: the separator bytes when
`keepends` is set, nothing otherwise. -/
def sepPiece (keep : Bool) (sep : List Nat) : List Nat := if keep then sep else []

/-- `bytes.splitlines(keepends)`: split on `\r\n`, `\r`, `\n` (the `\r\n` pair
is consumed greedily); a trailing terminator does not produce a trailing empty
piece. -/
def slB (keep : Bool) : List Nat → List (List Nat)
  | [] => []
  | x :: xs =>
    if x = 13 then
      match xs with
      | y :: ys =>
        if y = 10 then sepPiece keep [13, 10] :: slB keep ys
        else sepPiece keep [13] :: slB keep (y :: ys)
      | [] => [sepPiece keep [13]]
    else if x = 10 then
      sepPiece keep [10] :: slB keep xs
    else
      match slB keep xs with
      | [] => [[x]]
      | p :: ps => (x :: p) :: ps

@[simp] theorem slB_nil (keep : Bool) : slB keep [] = [] := rfl

theorem slB_crlf (keep : Bool) (r : List Nat) :
    slB keep (13 :: 10 :: r) = sepPiece keep [13, 10] :: slB keep r := by
  simp [slB]

theorem slB_cr_nil (keep : Bool) : slB keep [13] = [sepPiece keep [13]] := by
  simp [slB]

theorem slB_cr (keep : Bool) (y : Nat) (r : List Nat) (hy : y ≠ 10) :
    slB keep (13 :: y :: r) = sepPiece keep [13] :: slB keep (y :: r) := by
  rw [slB.eq_def]; simp [hy]

theorem slB_lf (keep : Bool) (r : List Nat) :
    slB keep (10 :: r) = sepPiece keep [10] :: slB keep r := by
  rw [slB.eq_def]; simp

theorem slB_other (keep : Bool) (x : Nat) (r : List Nat) (hx13 : x ≠ 13) (hx10 : x ≠ 10) :
    slB keep (x :: r) =
      (match slB keep r with
       | [] => [[x]]
       | p :: ps => (x :: p) :: ps) := by
  rw [slB.eq_def]; simp [hx13, hx10]

theorem slB_ne_nil (keep : Bool) (s : List Nat) (hs : s ≠ []) : slB keep s ≠ [] := by
  match s with
  | [] => exact absurd rfl hs
  | x :: xs =>
    by_cases hx13 : x = 13
    · subst hx13
      match xs with
      | [] => rw [slB_cr_nil]; simp
      | y :: ys =>
        by_cases hy : y = 10
        · subst hy; rw [slB_crlf]; simp
        · rw [slB_cr keep y ys hy]; simp
    · by_cases hx10 : x = 10
      · subst hx10; rw [slB_lf]; simp
      · rw [slB_other keep x xs hx13 hx10]
        match slB keep xs with
        | [] => simp
        | p :: ps => simp

theorem slB_eq_nil_iff (keep : Bool) (s : List Nat) : slB keep s = [] ↔ s = [] := by
  constructor
  · intro h
    by_contra hs
    exact slB_ne_nil keep s hs h
  · intro h; subst h; rfl

@[simp] theorem startsSep_nil : startsSep [] = false := rfl

@[simp] theorem startsSep_cons (x : Nat) (r : List Nat) : startsSep (x :: r) = sepB x := rfl

@[simp] theorem endsSep_nil : endsSep [] = false := rfl

@[simp] theorem endsSep_singleton (x : Nat) : endsSep [x] = sepB x := rfl

theorem endsSep_cons (x : Nat) (A : List Nat) (hA : A ≠ []) :
    endsSep (x :: A) = endsSep A := by
  match A with
  | [] => exact absurd rfl hA
  | y :: ys => rfl

theorem sepB_false (x : Nat) (h : sepB x = false) : x ≠ 13 ∧ x ≠ 10 := by
  simp [sepB] at h
  exact h

/-- The effect of Python's `lines[-1] += segment` on a list of lines. -/
def glueLast : List (List Nat) → List Nat → List (List Nat)
  | [], _ => []
  | [a], seg => [a ++ seg]
  | a :: b :: rest, seg => a :: glueLast (b :: rest) seg

@[simp] theorem glueLast_nil (seg : List Nat) : glueLast [] seg = [] := rfl

@[simp] theorem glueLast_singleton (a seg : List Nat) : glueLast [a] seg = [a ++ seg] := rfl

theorem glueLast_cons_cons (a b : List Nat) (rest : List (List Nat)) (seg : List Nat) :
    glueLast (a :: b :: rest) seg = a :: glueLast (b :: rest) seg := rfl

theorem glueLast_ne_nil (X : List (List Nat)) (seg : List Nat) (hX : X ≠ []) :
    glueLast X seg ≠ [] := by
  match X with
  | [] => exact absurd rfl hX
  | [a] => simp
  | a :: b :: rest => rw [glueLast_cons_cons]; simp

theorem glueLast_append (X Y : List (List Nat)) (seg : List Nat) (hY : Y ≠ []) :
    glueLast (X ++ Y) seg = X ++ glueLast Y seg := by
  induction X with
  | nil => simp
  | cons a X ih =>
    cases X with
    | nil =>
      cases Y with
      | nil => exact absurd rfl hY
      | cons b ys => rw [List.singleton_append, glueLast_cons_cons, List.singleton_append]
    | cons c xs =>
      rw [List.cons_append, List.cons_append, glueLast_cons_cons, ← List.cons_append, ih]
      simp

theorem glueLast_glueLast (X : List (List Nat)) (u v : List Nat) (hX : X ≠ []) :
    glueLast (glueLast X u) v = glueLast X (u ++ v) := by
  induction X with
  | nil => exact absurd rfl hX
  | cons a X ih =>
    cases X with
    | nil => simp
    | cons b rest =>
      obtain ⟨g0, gs, hg⟩ := List.exists_cons_of_ne_nil (glueLast_ne_nil (b :: rest) u (by simp))
      rw [glueLast_cons_cons, hg, glueLast_cons_cons, ← hg, ih (by simp), glueLast_cons_cons]

/-- Concatenation of a list of byte strings (`b''.join` with no separator;
used to state the round-trip property). -/
def joinL : List (List Nat) → List Nat
  | [] => []
  | a :: t => a ++ joinL t

@[simp] theorem joinL_nil : joinL [] = [] := rfl

@[simp] theorem joinL_cons (a : List Nat) (t : List (List Nat)) :
    joinL (a :: t) = a ++ joinL t := rfl

theorem joinL_slB_aux : ∀ (n : Nat) (s : List Nat), s.length ≤ n → joinL (slB true s) = s := by
  intro n
  induction n with
  | zero =>
    intro s hlen
    match s with
    | [] => rfl
    | x :: xs => simp at hlen
  | succ n ih =>
    intro s hlen
    match s with
    | [] => rfl
    | x :: xs =>
      by_cases hx13 : x = 13
      · subst hx13
        match xs with
        | [] => rw [slB_cr_nil]; simp [sepPiece]
        | y :: ys =>
          by_cases hy : y = 10
          · subst hy
            rw [slB_crlf]
            simp only [sepPiece, if_true, joinL_cons]
            rw [ih ys (by simp at hlen ⊢; omega)]
            rfl
          · rw [slB_cr true y ys hy]
            simp only [sepPiece, if_true, joinL_cons]
            rw [ih (y :: ys) (by simp at hlen ⊢; omega)]
            rfl
      · by_cases hx10 : x = 10
        · subst hx10
          rw [slB_lf]
          simp only [sepPiece, if_true, joinL_cons]
          rw [ih xs (by simp at hlen ⊢; omega)]
          rfl
        · rw [slB_other true x xs hx13 hx10]
          rcases hxs : slB true xs with _ | ⟨p, ps⟩
          · have : xs = [] := (slB_eq_nil_iff true xs).mp hxs
            subst this
            rfl
          · have := ih xs (by simp at hlen ⊢; omega)
            rw [hxs] at this
            simp only [joinL_cons] at this ⊢
            rw [List.cons_append, this]

/-- Joining the pieces of `splitlines(keepends=True)` restores the original
byte string. -/
theorem joinL_slB (s : List Nat) : joinL (slB true s) = s :=
  joinL_slB_aux s.length s le_rfl

theorem slB_append_sepEnd_aux (keep : Bool) :
    ∀ (n : Nat) (A B : List Nat), A.length ≤ n → endsSep A = true → startsSep B = false →
      slB keep (A ++ B) = slB keep A ++ slB keep B := by
  intro n
  induction n with
  | zero =>
    intro A B hlen hA _
    match A with
    | [] => simp at hA
    | x :: A' => simp at hlen
  | succ n ih =>
    intro A B hlen hA hB
    match A with
    | [] => simp at hA
    | x :: A' =>
      by_cases hx13 : x = 13
      · subst hx13
        match A' with
        | [] =>
          match B with
          | [] => simp
          | z :: zs =>
            have hz := sepB_false z (by simpa using hB)
            simp only [List.singleton_append]
            rw [slB_cr keep z zs hz.2, slB_cr_nil]
            rfl
        | y :: ys =>
          by_cases hy : y = 10
          · subst hy
            match ys with
            | [] =>
              match B with
              | [] => simp
              | z :: zs =>
                simp only [List.cons_append, List.nil_append]
                rw [slB_crlf, slB_crlf]
                rfl
            | w :: ws =>
              have hys : endsSep (w :: ws) = true := by
                rw [endsSep_cons 13 (10 :: w :: ws) (by simp),
                  endsSep_cons 10 (w :: ws) (by simp)] at hA
                exact hA
              have hrec := ih (w :: ws) B (by simp at hlen ⊢; omega) hys hB
              simp only [List.cons_append] at hrec ⊢
              rw [slB_crlf, hrec, slB_crlf]
              rfl
          · have hA' : endsSep (y :: ys) = true := by
              rw [endsSep_cons 13 (y :: ys) (by simp)] at hA; exact hA
            have hrec := ih (y :: ys) B (by simp at hlen ⊢; omega) hA' hB
            simp only [List.cons_append] at hrec ⊢
            rw [slB_cr keep y (ys ++ B) hy, hrec, slB_cr keep y ys hy]
            rfl
      · by_cases hx10 : x = 10
        · subst hx10
          match A' with
          | [] => rw [List.singleton_append, slB_lf, slB_lf]; rfl
          | y :: ys =>
            have hA' : endsSep (y :: ys) = true := by
              rw [endsSep_cons 10 (y :: ys) (by simp)] at hA; exact hA
            have hrec := ih (y :: ys) B (by simp at hlen ⊢; omega) hA' hB
            simp only [List.cons_append] at hrec ⊢
            rw [slB_lf, hrec, slB_lf]
            rfl
        · match A' with
          | [] => simp [sepB, hx13, hx10] at hA
          | y :: ys =>
            have hA' : endsSep (y :: ys) = true := by
              rw [endsSep_cons x (y :: ys) (by simp)] at hA; exact hA
            have hrec := ih (y :: ys) B (by simp at hlen ⊢; omega) hA' hB
            obtain ⟨p, ps, hp⟩ := List.exists_cons_of_ne_nil (slB_ne_nil keep (y :: ys) (by simp))
            simp only [List.cons_append] at hrec ⊢
            rw [slB_other keep x _ hx13 hx10, hrec, hp,
              slB_other keep x (y :: ys) hx13 hx10, hp]
            rfl

/-- If `A` ends with a line separator and `B` does not begin with one,
`splitlines` splits `A ++ B` as the pieces of `A` followed by those of `B`. -/
theorem slB_append_sepEnd (keep : Bool) (A B : List Nat) (hA : endsSep A = true)
    (hB : startsSep B = false) :
    slB keep (A ++ B) = slB keep A ++ slB keep B :=
  slB_append_sepEnd_aux keep A.length A B le_rfl hA hB

theorem slB_append_glue_aux (keep : Bool) :
    ∀ (n : Nat) (A B : List Nat) (h : List Nat) (t : List (List Nat)),
      A.length ≤ n → A ≠ [] → endsSep A = false → slB keep B = h :: t →
      slB keep (A ++ B) = glueLast (slB keep A) h ++ t := by
  intro n
  induction n with
  | zero =>
    intro A B h t hlen hAne _ _
    match A with
    | [] => exact absurd rfl hAne
    | x :: A' => simp at hlen
  | succ n ih =>
    intro A B h t hlen hAne hA hsB
    match A with
    | [] => exact absurd rfl hAne
    | x :: A' =>
      by_cases hx13 : x = 13
      · subst hx13
        match A' with
        | [] => simp [sepB] at hA
        | y :: ys =>
          by_cases hy : y = 10
          · subst hy
            match ys with
            | [] => simp [sepB, endsSep_cons 13 [10] (by simp)] at hA
            | w :: ws =>
              have hys : endsSep (w :: ws) = false := by
                rw [endsSep_cons 13 (10 :: w :: ws) (by simp),
                  endsSep_cons 10 (w :: ws) (by simp)] at hA
                exact hA
              have hrec := ih (w :: ws) B h t (by simp at hlen ⊢; omega) (by simp) hys hsB
              obtain ⟨q, qs, hq⟩ :=
                List.exists_cons_of_ne_nil (slB_ne_nil keep (w :: ws) (by simp))
              simp only [List.cons_append] at hrec ⊢
              rw [slB_crlf, hrec, slB_crlf, hq, glueLast_cons_cons]
              rfl
          · have hA' : endsSep (y :: ys) = false := by
              rw [endsSep_cons 13 (y :: ys) (by simp)] at hA; exact hA
            have hrec := ih (y :: ys) B h t (by simp at hlen ⊢; omega) (by simp) hA' hsB
            obtain ⟨q, qs, hq⟩ :=
              List.exists_cons_of_ne_nil (slB_ne_nil keep (y :: ys) (by simp))
            simp only [List.cons_append] at hrec ⊢
            rw [slB_cr keep y (ys ++ B) hy, hrec, slB_cr keep y ys hy, hq, glueLast_cons_cons]
            rfl
      · by_cases hx10 : x = 10
        · subst hx10
          match A' with
          | [] => simp [sepB] at hA
          | y :: ys =>
            have hA' : endsSep (y :: ys) = false := by
              rw [endsSep_cons 10 (y :: ys) (by simp)] at hA; exact hA
            have hrec := ih (y :: ys) B h t (by simp at hlen ⊢; omega) (by simp) hA' hsB
            obtain ⟨q, qs, hq⟩ :=
              List.exists_cons_of_ne_nil (slB_ne_nil keep (y :: ys) (by simp))
            simp only [List.cons_append] at hrec ⊢
            rw [slB_lf, hrec, slB_lf, hq, glueLast_cons_cons]
            rfl
        · match A' with
          | [] =>
            simp only [List.singleton_append]
            rw [slB_other keep x B hx13 hx10, hsB, slB_other keep x [] hx13 hx10]
            rfl
          | y :: ys =>
            have hA' : endsSep (y :: ys) = false := by
              rw [endsSep_cons x (y :: ys) (by simp)] at hA; exact hA
            have hrec := ih (y :: ys) B h t (by simp at hlen ⊢; omega) (by simp) hA' hsB
            obtain ⟨p, ps, hp⟩ :=
              List.exists_cons_of_ne_nil (slB_ne_nil keep (y :: ys) (by simp))
            simp only [List.cons_append] at hrec ⊢
            rw [slB_other keep x _ hx13 hx10, hrec, hp,
              slB_other keep x (y :: ys) hx13 hx10, hp]
            cases ps with
            | nil =>
              rw [glueLast_singleton, glueLast_singleton]
              rfl
            | cons r rs =>
              rw [glueLast_cons_cons, glueLast_cons_cons]
              rfl

/-- If `A` is nonempty and does not end with a line separator, `splitlines`
splits `A ++ B` by gluing the first piece of `B` onto the last piece of `A`. -/
theorem slB_append_glue (keep : Bool) (A B : List Nat) (h : List Nat) (t : List (List Nat))
    (hAne : A ≠ []) (hA : endsSep A = false) (hsB : slB keep B = h :: t) :
    slB keep (A ++ B) = glueLast (slB keep A) h ++ t :=
  slB_append_glue_aux keep A.length A B h t le_rfl hAne hA hsB

theorem endsSep_append (A B : List Nat) (hB : B ≠ []) : endsSep (A ++ B) = endsSep B := by
  unfold endsSep
  rw [List.getLast?_append]
  cases h : B.getLast? with
  | none => exact absurd (List.getLast?_eq_none_iff.mp h) hB
  | some x => rfl

theorem startsSep_take (l : List Nat) (n : Nat) (hn : 1 ≤ n) :
    startsSep (l.take n) = startsSep l := by
  cases l with
  | nil => simp
  | cons x xs =>
    cases n with
    | zero => omega
    | succ m => rfl

/-! ### The reverse line-streaming engine

Translation of `Reverse_File_Reader` (src/SpiderUtilLib/FileUtils.py, lines
149–279) and its nested helpers.  A byte stream is its list of bytes; `seek` /
`read` become list slicing. -/

/-- `ceil_division(left_number, right_number) = -(-left // right)`, i.e. ceiling
division.  (All modelled callers pass a positive divisor; Python raises
`ZeroDivisionError` on zero.) -/
def ceil_division (leftNumber rightNumber : Nat) : Nat :=
  (leftNumber + rightNumber - 1) / rightNumber

/-- `read_batch_from_end(byte_stream, size, end_position)`: seek to `offset`
and read `size` bytes, i.e. the slice `[offset, offset + size)`. -/
def read_batch_from_end (byteStream : List Nat) (size endPosition : Nat) : List Nat :=
  if size < endPosition then (byteStream.drop (endPosition - size)).take size
  else byteStream.take endPosition

/-- The checkpoint sequence
`islice(accumulate(chain([stream_size], repeat(batch_size)), sub), batches_count)`:
the first `⌈L/b⌉` values of `L, L−b, L−2b, …`. -/
def checkpoints (streamSize batchSize : Nat) : List Nat :=
  (List.range (ceil_division streamSize batchSize)).map (fun i => streamSize - i * batchSize)

/-- The `while result.startswith(lines_separator)` loop of `read_batch`: while
the accumulated batch starts with a separator, pull the next checkpoint from
the shared iterator and prepend the window ending there; a `StopIteration`
(exhausted checkpoints) breaks the loop.  Returns the accumulated batch and
the checkpoints left for the outer `for` loop. -/
def read_batch_go (stream : List Nat) (bsize : Nat) (guard : List Nat → Bool) :
    List Nat → List Nat → List Nat × List Nat
  | acc, [] => (acc, [])
  | acc, p :: cps =>
    if guard acc then
      read_batch_go stream bsize guard (read_batch_from_end stream bsize p ++ acc) cps
    else (acc, p :: cps)

/-- `read_batch(position)` (the closure inside `reverse_binary_stream`),
together with the checkpoints remaining after the separator-straddle loop. -/
def read_batch (stream : List Nat) (bsize : Nat) (guard : List Nat → Bool)
    (position : Nat) (cps : List Nat) : List Nat × List Nat :=
  read_batch_go stream bsize guard (read_batch_from_end stream bsize position) cps

/-- The `for remaining_bytes_count in remaining_bytes_indicator` loop of
`reverse_binary_stream`, followed by the final `yield segment`.  `fuel` bounds
the number of iterations (callers pass more fuel than there are checkpoints,
so the `fuel = 0` branch is unreachable).  The `lines1 = []` branch is likewise
unreachable: batches are nonempty, so the splitter returns at least one piece
(in Python an empty splitter result would raise `ValueError` at
`segment, *lines = lines`). -/
def stream_loop (stream : List Nat) (bsize : Nat) (guard : List Nat → Bool)
    (splitter : List Nat → List (List Nat)) (endsW : List Nat → Bool) :
    Nat → List Nat → List Nat → List (List Nat)
  | 0, seg, _ => [seg]
  | _ + 1, seg, [] => [seg]
  | fuel + 1, seg, p :: cps =>
    let r := read_batch stream bsize guard p cps
    let lines0 := splitter r.1
    let lines1 := if endsW r.1 then lines0 else glueLast lines0 seg
    (if endsW r.1 then [seg] else []) ++ lines1.tail.reverse ++
      stream_loop stream bsize guard splitter endsW fuel (lines1.headD []) r.2

/-- Leftmost, non-overlapping `bytes.split(sep)`, with an explicit recursion
bound (`fuel ≥ length + 1` always suffices since `sep` is nonempty and each
step consumes at least one byte). -/
def pySplitF (sep : List Nat) : Nat → List Nat → List (List Nat)
  | 0, s => [s]
  | fuel + 1, s =>
    match s with
    | [] => [[]]
    | x :: xs =>
      if sep.isPrefixOf (x :: xs) then
        [] :: pySplitF sep fuel ((x :: xs).drop sep.length)
      else
        match pySplitF sep fuel xs with
        | [] => [[x]]
        | p :: ps => (x :: p) :: ps

/-- `string.split(separator)` for a nonempty separator.  (CPython raises
`ValueError` on an empty separator; no modelled caller passes one.) -/
def pySplit (sep s : List Nat) : List (List Nat) := pySplitF sep (s.length + 1) s

/-- The nested `split(string, separator, keep_separator)` helper of
`Reverse_File_Reader`: plain split, or — when keeping separators — all but the
last raw piece re-suffixed with the separator and the last piece appended only
when nonempty. -/
def split (string separator : List Nat) (keepSeparator : Bool) : List (List Nat) :=
  let parts := pySplit separator string
  if keepSeparator then
    match parts.getLast? with
    | none => []
    | some lastPart =>
      let kept := parts.dropLast.map (· ++ separator)
      if lastPart = [] then kept else kept ++ [lastPart]
  else parts

/-- The body of `reverse_binary_stream` once `batch_size` has been resolved:
choose guard/splitter/end-test from the separator mode, generate the
checkpoints, and run the first read plus the main loop. -/
def reverseBinaryStreamBody (byteStream : List Nat) (batchSize : Nat)
    (linesSeparator? : Option (List Nat)) (keepLinesSeparator : Bool) : List (List Nat) :=
  let guard : List Nat → Bool :=
    match linesSeparator? with
    | none => startsSep
    | some sep => fun l => sep.isPrefixOf l
  let splitter : List Nat → List (List Nat) :=
    match linesSeparator? with
    | none => slB keepLinesSeparator
    | some sep => fun l => split l sep keepLinesSeparator
  let endsW : List Nat → Bool :=
    match linesSeparator? with
    | none => endsSep
    | some sep => fun l => sep.isSuffixOf l
  match checkpoints byteStream.length batchSize with
  | [] => []
  | p :: cps =>
    let r := read_batch byteStream batchSize guard p cps
    let lines0 := splitter r.1
    lines0.tail.reverse ++ stream_loop byteStream batchSize guard splitter endsW
      (byteStream.length + 1) (lines0.headD []) r.2

/-- `reverse_binary_stream(byte_stream, batch_size, lines_separator,
keep_lines_separator)`: the sequence of byte strings the generator yields.
`batch_size = stream_size or 1` when unspecified. -/
def reverse_binary_stream (byteStream : List Nat) (batchSize? : Option Nat)
    (linesSeparator? : Option (List Nat)) (keepLinesSeparator : Bool) : List (List Nat) :=
  let streamSize := byteStream.length
  let batchSize :=
    match batchSize? with
    | none => if streamSize = 0 then 1 else streamSize
    | some b => b
  reverseBinaryStreamBody byteStream batchSize linesSeparator? keepLinesSeparator

/-- `str.rstrip()` restricted to the ASCII whitespace characters
(TAB, LF, VT, FF, CR, space); all modelled inputs are ASCII. -/
def pyRstrip (l : List Nat) : List Nat :=
  (l.reverse.dropWhile
    (fun x => x == 32 || x == 9 || x == 10 || x == 11 || x == 12 || x == 13)).reverse

/-- `Reverse_File_Reader(file_object, lines_separator, keep_lines_separator,
save_memory=True)`: `reverse_file` runs `reverse_binary_stream` over the raw
byte buffer with default batch size, the implicit separator set and
`keep_lines_separator=True` (its own default), decoding each piece (identity
on ASCII bytes); the outer loop then yields `line.rstrip() + lines_separator`
when keeping separators and `line.rstrip()` otherwise. -/
def reverse_file_reader (fileBytes : List Nat) (linesSeparator : List Nat)
    (keepLinesSeparator : Bool) : List (List Nat) :=
  (reverse_binary_stream fileBytes none none true).map
    (fun line =>
      if keepLinesSeparator then pyRstrip line ++ linesSeparator else pyRstrip line)

/-! ### Correctness of the engine in default-separator mode -/

theorem ceil_division_zero (b : Nat) : ceil_division 0 b = 0 := by
  unfold ceil_division
  cases b with
  | zero => rfl
  | succ b =>
    rw [Nat.zero_add, Nat.succ_sub_one]
    exact Nat.div_eq_of_lt (Nat.lt_succ_self b)

theorem checkpoints_zero (b : Nat) : checkpoints 0 b = [] := by
  simp [checkpoints, ceil_division_zero]

theorem ceil_division_succ (p b : Nat) (hb : 1 ≤ b) (hp : 1 ≤ p) :
    ceil_division p b = ceil_division (p - b) b + 1 := by
  rcases le_or_lt p b with hpb | hpb
  · have h1 : p - b = 0 := by omega
    rw [h1, ceil_division_zero]
    unfold ceil_division
    have h2 : p + b - 1 = (p - 1) + b := by omega
    rw [h2, Nat.add_div_right _ (by omega)]
    rw [Nat.div_eq_of_lt (by omega : p - 1 < b)]
  · unfold ceil_division
    have h2 : p + b - 1 = (p - b + b - 1) + b := by omega
    rw [h2, Nat.add_div_right _ (by omega)]

theorem checkpoints_peel (p b : Nat) (hb : 1 ≤ b) (hp : 1 ≤ p) :
    checkpoints p b = p :: checkpoints (p - b) b := by
  unfold checkpoints
  rw [ceil_division_succ p b hb hp, List.range_succ_eq_map, List.map_cons, List.map_map]
  refine congrArg₂ _ (by omega) ?_
  apply List.map_congr_left
  intro i _
  simp only [Function.comp_apply, Nat.succ_mul]
  omega

theorem read_batch_from_end_eq (s : List Nat) (b p : Nat) :
    read_batch_from_end s b p = (s.take p).drop (p - b) := by
  unfold read_batch_from_end
  split
  · rename_i h
    rw [List.drop_take]
    congr 1
    omega
  · rename_i h
    have : p - b = 0 := by omega
    rw [this, List.drop_zero]

theorem slice_append (s : List Nat) (a q p : Nat) (haq : a ≤ q) (hqp : q ≤ p)
    (hp : p ≤ s.length) :
    (s.take q).drop a ++ (s.take p).drop q = (s.take p).drop a := by
  have h1 : s.take q = (s.take p).take q := by
    rw [List.take_take, Nat.min_eq_left hqp]
  rw [h1]
  conv_rhs => rw [← List.take_append_drop q (s.take p)]
  rw [List.drop_append_eq_append_drop]
  have h2 : ((s.take p).take q).length = q := by
    rw [List.length_take, List.length_take]
    omega
  rw [h2, show a - q = 0 from by omega, List.drop_zero]

theorem read_batch_go_nil (stream : List Nat) (bsize : Nat) (guard : List Nat → Bool)
    (acc : List Nat) : read_batch_go stream bsize guard acc [] = (acc, []) := rfl

theorem read_batch_go_cons (stream : List Nat) (bsize : Nat) (guard : List Nat → Bool)
    (acc : List Nat) (p : Nat) (cps : List Nat) :
    read_batch_go stream bsize guard acc (p :: cps) =
      if guard acc then
        read_batch_go stream bsize guard (read_batch_from_end stream bsize p ++ acc) cps
      else (acc, p :: cps) := rfl

/-- What the separator-straddle loop computes when entered with the batch
`s[q, p)` and the checkpoints below `q`: it hands back a longer slice
`s[lo, p)` that either reaches the start of the source (`lo = 0`) or does not
begin with a separator-set member, together with the unconsumed checkpoints. -/
theorem read_batch_go_spec (s : List Nat) (b : Nat) (hb : 1 ≤ b) :
    ∀ (q p : Nat), q ≤ p → p ≤ s.length →
      ∃ lo, lo ≤ q ∧
        read_batch_go s b startsSep ((s.take p).drop q) (checkpoints q b) =
          ((s.take p).drop lo, checkpoints lo b) ∧
        (lo = 0 ∨ startsSep ((s.take p).drop lo) = false) := by
  intro q
  induction q using Nat.strong_induction_on with
  | _ q ihq =>
    intro p hqp hp
    by_cases hg : startsSep ((s.take p).drop q) = true
    · rcases Nat.eq_zero_or_pos q with rfl | hq1
      · rw [checkpoints_zero]
        exact ⟨0, le_rfl, by rw [read_batch_go_nil, checkpoints_zero], Or.inl rfl⟩
      · rw [checkpoints_peel q b hb hq1]
        have hacc : read_batch_from_end s b q ++ (s.take p).drop q =
            (s.take p).drop (q - b) := by
          rw [read_batch_from_end_eq]
          exact slice_append s (q - b) q p (by omega) hqp hp
        obtain ⟨lo, hlo1, hlo2, hlo3⟩ := ihq (q - b) (by omega) p (by omega) hp
        refine ⟨lo, by omega, ?_, hlo3⟩
        rw [read_batch_go_cons, if_pos hg, hacc]
        exact hlo2
    · have hg' : startsSep ((s.take p).drop q) = false := by
        cases h : startsSep ((s.take p).drop q) with
        | true => exact absurd h hg
        | false => rfl
      rcases Nat.eq_zero_or_pos q with rfl | hq1
      · rw [checkpoints_zero]
        exact ⟨0, le_rfl, by rw [read_batch_go_nil, checkpoints_zero], Or.inr hg'⟩
      · refine ⟨q, le_rfl, ?_, Or.inr hg'⟩
        rw [checkpoints_peel q b hb hq1, read_batch_go_cons, if_neg (by simp [hg']),
          ← checkpoints_peel q b hb hq1]

/-- `read_batch(p)` in default-separator mode returns the slice `s[lo, p)`
for some `lo < p` that is either the start of the source or a clean
(non-separator) position, and leaves exactly the checkpoints below `lo`. -/
theorem read_batch_spec (s : List Nat) (b : Nat) (hb : 1 ≤ b) (p : Nat)
    (hp1 : 1 ≤ p) (hp : p ≤ s.length) :
    ∃ lo, lo < p ∧
      read_batch s b startsSep p (checkpoints (p - b) b) =
        ((s.take p).drop lo, checkpoints lo b) ∧
      (lo = 0 ∨ startsSep ((s.take p).drop lo) = false) := by
  unfold read_batch
  rw [read_batch_from_end_eq]
  obtain ⟨lo, h1, h2, h3⟩ := read_batch_go_spec s b hb (p - b) p (by omega) hp
  exact ⟨lo, by omega, h2, h3⟩

theorem stream_loop_nil (stream : List Nat) (bsize : Nat) (guard : List Nat → Bool)
    (splitter : List Nat → List (List Nat)) (endsW : List Nat → Bool) (fuel : Nat)
    (seg : List Nat) :
    stream_loop stream bsize guard splitter endsW (fuel + 1) seg [] = [seg] := rfl

theorem stream_loop_cons (stream : List Nat) (bsize : Nat) (guard : List Nat → Bool)
    (splitter : List Nat → List (List Nat)) (endsW : List Nat → Bool) (fuel : Nat)
    (seg : List Nat) (p : Nat) (cps batch : List Nat) (cps' : List Nat)
    (hrb : read_batch stream bsize guard p cps = (batch, cps')) :
    stream_loop stream bsize guard splitter endsW (fuel + 1) seg (p :: cps) =
      (if endsW batch then [seg] else []) ++
        (if endsW batch then splitter batch else glueLast (splitter batch) seg).tail.reverse ++
        stream_loop stream bsize guard splitter endsW fuel
          ((if endsW batch then splitter batch else glueLast (splitter batch) seg).headD [])
          cps' := by
  have h1 : (read_batch stream bsize guard p cps).1 = batch := by rw [hrb]
  have h2 : (read_batch stream bsize guard p cps).2 = cps' := by rw [hrb]
  simp only [stream_loop]
  rw [h1, h2]

/-- The lines still to be produced when the prefix `T` of the source remains
unread and `seg` is the carried segment (proof-level abstraction of the
loop's state). -/
def glueSplit (keep : Bool) (T seg : List Nat) : List (List Nat) :=
  if T = [] then [seg]
  else if endsSep T then slB keep T ++ [seg]
  else glueLast (slB keep T) seg

@[simp] theorem glueSplit_nil (keep : Bool) (seg : List Nat) :
    glueSplit keep [] seg = [seg] := by simp [glueSplit]

/-- Invariant of the main loop in default-separator mode: entered with the
carried segment `seg` and the checkpoints below a clean position `p`, it emits
exactly the pieces of the unread prefix `s[0, p)` (with `seg` glued on or
appended per the `endswith` rule), in reverse order. -/
theorem stream_loop_spec (s : List Nat) (b : Nat) (keep : Bool) (hb : 1 ≤ b) :
    ∀ (fuel p : Nat) (seg : List Nat), p < fuel → p ≤ s.length →
      (p = 0 ∨ startsSep (s.drop p) = false) →
      stream_loop s b startsSep (slB keep) endsSep fuel seg (checkpoints p b) =
        (glueSplit keep (s.take p) seg).reverse := by
  intro fuel
  induction fuel with
  | zero => intro p seg h _ _; omega
  | succ fuel ih =>
    intro p seg hpf hp hclean
    rcases Nat.eq_zero_or_pos p with rfl | hp1
    · rw [checkpoints_zero, stream_loop_nil]
      simp [glueSplit]
    · have hTlen : (s.take p).length = p := by rw [List.length_take]; omega
      have hTne : s.take p ≠ [] := by
        intro hcontra; rw [hcontra] at hTlen; simp at hTlen; omega
      obtain ⟨lo, hlo, hrb, hloclean⟩ := read_batch_spec s b hb p hp1 hp
      have hbatchne : (s.take p).drop lo ≠ [] := by
        rw [Ne, List.drop_eq_nil_iff, hTlen]
        omega
      obtain ⟨h0, t0, hsplit⟩ := List.exists_cons_of_ne_nil (slB_ne_nil keep _ hbatchne)
      have hT : s.take lo ++ (s.take p).drop lo = s.take p := by
        have h1 : s.take lo = (s.take p).take lo := by
          rw [List.take_take, Nat.min_eq_left (by omega)]
        rw [h1, List.take_append_drop]
      have hendsT : endsSep (s.take p) = endsSep ((s.take p).drop lo) := by
        conv_lhs => rw [← hT]
        exact endsSep_append _ _ hbatchne
      have hcleanlo : lo = 0 ∨ startsSep (s.drop lo) = false := by
        rcases hloclean with h | h
        · exact Or.inl h
        · refine Or.inr ?_
          rw [List.drop_take] at h
          rw [← startsSep_take (s.drop lo) (p - lo) (by omega)]
          exact h
      have hIH := ih lo (((if endsSep ((s.take p).drop lo) then slB keep ((s.take p).drop lo)
        else glueLast (slB keep ((s.take p).drop lo)) seg)).headD [])
        (by omega) (by omega) hcleanlo
      rw [checkpoints_peel p b hb hp1,
        stream_loop_cons s b startsSep (slB keep) endsSep fuel seg p _ _ _ hrb, hIH]
      by_cases hE : endsSep ((s.take p).drop lo) = true
      · rw [if_pos hE, if_pos hE, hsplit]
        simp only [List.headD_cons, List.tail_cons]
        have hgsT : glueSplit keep (s.take p) seg = slB keep (s.take p) ++ [seg] := by
          unfold glueSplit
          rw [if_neg hTne, if_pos (by rw [hendsT]; exact hE)]
        rw [hgsT]
        rcases Nat.eq_zero_or_pos lo with rfl | hlo1
        · rw [List.drop_zero] at hsplit
          rw [hsplit]
          simp
        · have hclean_batch : startsSep ((s.take p).drop lo) = false := by
            rcases hloclean with h | h
            · omega
            · exact h
          have hAne : s.take lo ≠ [] := by
            have : (s.take lo).length = lo := by rw [List.length_take]; omega
            intro hcontra; rw [hcontra] at this; simp at this; omega
          by_cases hEA : endsSep (s.take lo) = true
          · have hsplitT : slB keep (s.take p) = slB keep (s.take lo) ++ (h0 :: t0) := by
              rw [← hT, slB_append_sepEnd keep _ _ hEA hclean_batch, hsplit]
            have hgsA : glueSplit keep (s.take lo) h0 = slB keep (s.take lo) ++ [h0] := by
              unfold glueSplit
              rw [if_neg hAne, if_pos hEA]
            rw [hsplitT, hgsA]
            simp
          · have hEA' : endsSep (s.take lo) = false := by
              cases h : endsSep (s.take lo) with
              | true => exact absurd h hEA
              | false => rfl
            have hsplitT : slB keep (s.take p) =
                glueLast (slB keep (s.take lo)) h0 ++ t0 := by
              rw [← hT, slB_append_glue keep _ _ h0 t0 hAne hEA' hsplit]
            have hgsA : glueSplit keep (s.take lo) h0 = glueLast (slB keep (s.take lo)) h0 := by
              unfold glueSplit
              rw [if_neg hAne, if_neg (by rw [hEA']; simp)]
            rw [hsplitT, hgsA]
            simp
      · have hEf : endsSep ((s.take p).drop lo) = false := by
          cases h : endsSep ((s.take p).drop lo) with
          | true => exact absurd h hE
          | false => rfl
        rw [if_neg hE, if_neg hE, hsplit]
        have hgsT : glueSplit keep (s.take p) seg = glueLast (slB keep (s.take p)) seg := by
          unfold glueSplit
          rw [if_neg hTne, if_neg (by rw [hendsT, hEf]; simp)]
        rw [hgsT]
        rcases Nat.eq_zero_or_pos lo with rfl | hlo1
        · rw [List.drop_zero] at hsplit
          rw [hsplit]
          cases t0 with
          | nil => simp
          | cons r rs =>
            rw [glueLast_cons_cons]
            simp
        · have hclean_batch : startsSep ((s.take p).drop lo) = false := by
            rcases hloclean with h | h
            · omega
            · exact h
          have hAne : s.take lo ≠ [] := by
            have : (s.take lo).length = lo := by rw [List.length_take]; omega
            intro hcontra; rw [hcontra] at this; simp at this; omega
          have hslBAne : slB keep (s.take lo) ≠ [] := slB_ne_nil keep _ hAne
          by_cases hEA : endsSep (s.take lo) = true
          · have hsplitT : slB keep (s.take p) = slB keep (s.take lo) ++ (h0 :: t0) := by
              rw [← hT, slB_append_sepEnd keep _ _ hEA hclean_batch, hsplit]
            have hgsA : ∀ z : List Nat, glueSplit keep (s.take lo) z =
                slB keep (s.take lo) ++ [z] := by
              intro z
              unfold glueSplit
              rw [if_neg hAne, if_pos hEA]
            rw [hsplitT,
              glueLast_append (slB keep (s.take lo)) (h0 :: t0) seg (by simp)]
            cases t0 with
            | nil =>
              simp only [glueLast_singleton, List.headD_cons, List.tail_cons, hgsA]
              simp
            | cons r rs =>
              rw [glueLast_cons_cons]
              simp only [List.headD_cons, List.tail_cons, hgsA]
              simp
          · have hEA' : endsSep (s.take lo) = false := by
              cases h : endsSep (s.take lo) with
              | true => exact absurd h hEA
              | false => rfl
            have hsplitT : slB keep (s.take p) =
                glueLast (slB keep (s.take lo)) h0 ++ t0 := by
              rw [← hT, slB_append_glue keep _ _ h0 t0 hAne hEA' hsplit]
            have hgsA : ∀ z : List Nat, glueSplit keep (s.take lo) z =
                glueLast (slB keep (s.take lo)) z := by
              intro z
              unfold glueSplit
              rw [if_neg hAne, if_neg (by rw [hEA']; simp)]
            rw [hsplitT]
            cases t0 with
            | nil =>
              rw [List.append_nil, glueLast_glueLast _ _ _ hslBAne]
              simp only [glueLast_singleton, List.headD_cons, List.tail_cons, hgsA]
              simp
            | cons r rs =>
              rw [glueLast_append _ (r :: rs) seg (by simp), glueLast_cons_cons]
              simp only [List.headD_cons, List.tail_cons, hgsA]
              simp

theorem reverseBinaryStreamBody_default_eq (s : List Nat) (b : Nat) (keep : Bool) :
    reverseBinaryStreamBody s b none keep =
      match checkpoints s.length b with
      | [] => []
      | p :: cps =>
        (slB keep (read_batch s b startsSep p cps).1).tail.reverse ++
          stream_loop s b startsSep (slB keep) endsSep (s.length + 1)
            ((slB keep (read_batch s b startsSep p cps).1).headD [])
            (read_batch s b startsSep p cps).2 := rfl

/-- Order property of the engine in default-separator mode, for every window
size: `reverse_binary_stream` yields exactly the reverse of the forward
`splitlines` sequence. -/
theorem reverseBinaryStreamBody_default (s : List Nat) (keep : Bool) (b : Nat) (hb : 1 ≤ b) :
    reverseBinaryStreamBody s b none keep = (slB keep s).reverse := by
  rw [reverseBinaryStreamBody_default_eq]
  rcases Nat.eq_zero_or_pos s.length with h0 | h1
  · have hs : s = [] := List.eq_nil_of_length_eq_zero h0
    subst hs
    simp only [List.length_nil]
    rw [checkpoints_zero]
    dsimp only
    simp
  · rw [checkpoints_peel s.length b hb h1]
    dsimp only
    obtain ⟨lo, hlo, hrb, hloclean⟩ := read_batch_spec s b hb s.length h1 le_rfl
    rw [List.take_length] at hrb hloclean
    have hq1 : (read_batch s b startsSep s.length (checkpoints (s.length - b) b)).1 =
        s.drop lo := by rw [hrb]
    have hq2 : (read_batch s b startsSep s.length (checkpoints (s.length - b) b)).2 =
        checkpoints lo b := by rw [hrb]
    rw [hq1, hq2]
    have hdropne : s.drop lo ≠ [] := by
      rw [Ne, List.drop_eq_nil_iff]
      omega
    obtain ⟨h0, t0, hsplit⟩ := List.exists_cons_of_ne_nil (slB_ne_nil keep (s.drop lo) hdropne)
    rw [hsplit]
    simp only [List.headD_cons, List.tail_cons]
    rw [stream_loop_spec s b keep hb (s.length + 1) lo h0 (by omega) (by omega) hloclean]
    rcases Nat.eq_zero_or_pos lo with rfl | hlo1
    · rw [List.drop_zero] at hsplit
      rw [hsplit]
      simp
    · have hAne : s.take lo ≠ [] := by
        have : (s.take lo).length = lo := by rw [List.length_take]; omega
        intro hcontra; rw [hcontra] at this; simp at this; omega
      have hclean : startsSep (s.drop lo) = false := by
        rcases hloclean with h | h
        · omega
        · exact h
      have hS : s.take lo ++ s.drop lo = s := List.take_append_drop lo s
      by_cases hEA : endsSep (s.take lo) = true
      · have hsplitS : slB keep s = slB keep (s.take lo) ++ (h0 :: t0) := by
          conv_lhs => rw [← hS]
          rw [slB_append_sepEnd keep _ _ hEA hclean, hsplit]
        have hgsA : glueSplit keep (s.take lo) h0 = slB keep (s.take lo) ++ [h0] := by
          unfold glueSplit
          rw [if_neg hAne, if_pos hEA]
        rw [hsplitS, hgsA]
        simp
      · have hEA' : endsSep (s.take lo) = false := by
          cases h : endsSep (s.take lo) with
          | true => exact absurd h hEA
          | false => rfl
        have hsplitS : slB keep s = glueLast (slB keep (s.take lo)) h0 ++ t0 := by
          conv_lhs => rw [← hS]
          rw [slB_append_glue keep _ _ h0 t0 hAne hEA' hsplit]
        have hgsA : glueSplit keep (s.take lo) h0 = glueLast (slB keep (s.take lo)) h0 := by
          unfold glueSplit
          rw [if_neg hAne, if_neg (by rw [hEA']; simp)]
        rw [hsplitS, hgsA]
        simp

/-- Order property for an explicit window size. -/
theorem reverse_binary_stream_default (s : List Nat) (keep : Bool) (b : Nat) (hb : 1 ≤ b) :
    reverse_binary_stream s (some b) none keep = (slB keep s).reverse :=
  reverseBinaryStreamBody_default s keep b hb

/-- Order property for the default window size (`batch_size = stream_size or 1`). -/
theorem reverse_binary_stream_none_default (s : List Nat) (keep : Bool) :
    reverse_binary_stream s none none keep = (slB keep s).reverse := by
  rcases Nat.eq_zero_or_pos s.length with h0 | h1
  · have hs : s = [] := List.eq_nil_of_length_eq_zero h0
    subst hs
    exact reverseBinaryStreamBody_default [] keep 1 le_rfl
  · have hwrap : reverse_binary_stream s none none keep =
        reverseBinaryStreamBody s (if s.length = 0 then 1 else s.length) none keep := rfl
    rw [hwrap, if_neg (by omega)]
    exact reverseBinaryStreamBody_default s keep s.length h1

/-! ### The text-search layer

Translation of `Text_File_Search_All` (src/SpiderUtilLib/FileUtils.py, lines
281–319) and of the `src/src` variants of `reverse_file_reader`,
`text_file_search_all` and `text_file_cleanup`. -/

/-- Universal-newline translation performed by text-mode forward iteration:
`\r\n` and a lone `\r` both decode to `\n`. -/
def univNL : List Nat → List Nat
  | [] => []
  | x :: xs =>
    if x = 13 then
      match xs with
      | y :: ys => if y = 10 then 10 :: univNL ys else 10 :: univNL (y :: ys)
      | [] => [10]
    else x :: univNL xs

/-- Forward text-mode line iteration over a file (`for line in file_reader`):
universal-newline translation, then splitting with terminators kept. -/
def forwardLines (fileBytes : List Nat) : List (List Nat) :=
  slB true (univNL fileBytes)

/-- The backward line source of `Text_File_Search_All`:
`Reverse_File_Reader(file_reader, save_memory=True)` with its defaults
`lines_separator='\n'` and `keep_lines_separator=True`. -/
def backwardLines (fileBytes : List Nat) : List (List Nat) :=
  reverse_file_reader fileBytes [10] true

/-- `line.find(search_for) != -1`: substring containment. -/
def findSub (pat : List Nat) : List Nat → Bool
  | [] => pat.isPrefixOf []
  | x :: t => pat.isPrefixOf (x :: t) || findSub pat t

/-- The scan loop of `Text_File_Search_All`: for each visited line append the
recorded match, if any, to `result`, and break as soon as
`0 < count == len(result)`. -/
def searchLoop (matchOf : List Nat → Option (List Nat)) (count : Nat) :
    List (List Nat) → List (List Nat) → List (List Nat)
  | [], acc => acc
  | l :: ls, acc =>
    let acc' := match matchOf l with
      | some m => acc ++ [m]
      | none => acc
    if 0 < count ∧ acc'.length = count then acc'
    else searchLoop matchOf count ls acc'

/-- `Text_File_Search_All(file, search_for, …)` on the file's byte content.
`fileContent? = none` models a file that cannot be opened: `open` raises, the
`except` clause prints the error and returns `None`.  In regular-expression
mode `reMatcher` stands for `line ↦ re.search(re.compile(search_for), line)`,
i.e. the first (leftmost) matched substring of the line, if any; in literal
mode a line containing the pattern records the pattern itself. -/
def text_file_search_all (fileContent? : Option (List Nat)) (searchFor : List Nat)
    (searchUsingRegex : Bool) (reMatcher : List Nat → Option (List Nat))
    (searchFromFrontToBack : Bool) (count : Nat) : Option (List (List Nat)) :=
  if searchFor = [] then none
  else
    match fileContent? with
    | none => none
    | some content =>
      let lines := if searchFromFrontToBack then forwardLines content
                   else backwardLines content
      let matchOf : List Nat → Option (List Nat) := fun line =>
        if searchUsingRegex then reMatcher line
        else if findSub searchFor line then some searchFor else none
      let result := searchLoop matchOf count lines []
      if result = [] then none else some result

/-- ASCII decimal digit. -/
def isDigitB (x : Nat) : Bool := 48 ≤ x && x ≤ 57

/-- `re.search(re.compile(b"\\d+"), line)` on ASCII text: the leftmost maximal
run of decimal digits, if any — the concrete matcher instantiating `reMatcher`
for the spec's `\d+` example. -/
def reDigitPlus : List Nat → Option (List Nat)
  | [] => none
  | x :: t => if isDigitB x then some (x :: t.takeWhile isDigitB) else reDigitPlus t

/-- Result of pulling the first element from a Python generator: the body
either raises before yielding anything, or produces its yields. -/
inductive GenFirst (α : Type) where
  | raises (exceptionName : String)
  | yields (xs : List α)
deriving DecidableEq

/-- `reverse_file_reader` of `src/src/SpiderUtilLib/FileUtils.py` (line 191)
and `src/src/SpiderUtilLib/SpiderUtilLib.py` (line 482): the generator body
begins with `f = open(filename, 'w')`, and no name `filename` is bound in the
function, its class, or the module, so the first `next()` raises `NameError`
before any I/O is performed on `file_object`; the rest of the body is
unreachable. -/
def reverse_file_readerV2 (fileBytes linesSeparator : List Nat)
    (keepLinesSeparator saveMemory : Bool) : GenFirst (List Nat) :=
  GenFirst.raises "NameError"

/-- `text_file_search_all` of `src/src/SpiderUtilLib/FileUtils.py` (lines
307–345): identical to the v1 search, except that the backward branch iterates
the broken `reverse_file_reader` above — its first `next()` raises
`NameError`, which the surrounding `try/except` catches (printing the message)
before returning `None`. -/
def text_file_search_allV2 (fileContent? : Option (List Nat)) (searchFor : List Nat)
    (searchUsingRegex : Bool) (reMatcher : List Nat → Option (List Nat))
    (searchFromFrontToBack : Bool) (count : Nat) : Option (List (List Nat)) :=
  if searchFor = [] then none
  else
    match fileContent? with
    | none => none
    | some content =>
      let matchOf : List Nat → Option (List Nat) := fun line =>
        if searchUsingRegex then reMatcher line
        else if findSub searchFor line then some searchFor else none
      if searchFromFrontToBack then
        let result := searchLoop matchOf count (forwardLines content) []
        if result = [] then none else some result
      else
        match reverse_file_readerV2 content [10] true true with
        | GenFirst.raises _ => none
        | GenFirst.yields lines =>
          let result := searchLoop matchOf count lines []
          if result = [] then none else some result

/-- `a.join(parts)`: concatenation with a separator between pieces. -/
def joinLSep (sep : List Nat) : List (List Nat) → List Nat
  | [] => []
  | [a] => a
  | a :: b :: t => a ++ sep ++ joinLSep sep (b :: t)

/-- `str.replace(old, new)` for a nonempty `old`: every leftmost,
non-overlapping occurrence is replaced.  (For `old = ''` CPython interleaves
`new` between all characters; no modelled claim exercises that case.) -/
def pyReplace (old new s : List Nat) : List Nat :=
  if old = [] then s else joinLSep new (pySplit old s)

/-- Post-state of `text_file_cleanup`: the returned Bool, the content of
`file` after the call, and the content of `file + '.origin'` when it exists. -/
structure CleanupOutcome where
  retVal : Bool
  fileContent : List Nat
  originContent : Option (List Nat)
deriving DecidableEq

/-- `text_file_cleanup(file, search_for, replace_as, …)` of
`src/src/SpiderUtilLib/FileUtils.py` (lines 137–172) on a readable file with
byte content `content`, with a non-raising replacement pass (in regex mode
`reSub` stands for `line ↦ re.sub(re.compile(search_for), replace_as, line)`).
`shutil.move` renames the file to `file + '.origin'`; the loop rewrites each
line with the replacement applied (the unassigned `line.replace('&nbsp;', ' ')`
guarded by `auto_replace_nbsp` has no effect); then, when
`preserve_original_file` is false, `shutil.remove(file + '.origin')` raises
`AttributeError` — the `shutil` module has no attribute `remove` — which the
`except` clause catches, printing it and returning `False`.  The `.origin`
copy is left on disk and the rewritten `file` remains in place. -/
def text_file_cleanup (content searchFor replaceAs : List Nat)
    (searchUsingRegex : Bool) (reSub : List Nat → List Nat)
    (preserveOriginalFile : Bool) : CleanupOutcome :=
  let processLine : List Nat → List Nat := fun line =>
    if searchUsingRegex then reSub line else pyReplace searchFor replaceAs line
  let newContent := joinL ((forwardLines content).map processLine)
  if preserveOriginalFile then
    { retVal := true, fileContent := newContent, originContent := some content }
  else
    { retVal := false, fileContent := newContent, originContent := some content }

/-! ### Lemmas about the search loop -/

theorem searchLoop_length_le (matchOf : List Nat → Option (List Nat)) (count : Nat)
    (hc : 0 < count) :
    ∀ (ls acc : List (List Nat)), acc.length < count →
      (searchLoop matchOf count ls acc).length ≤ count := by
  intro ls
  induction ls with
  | nil =>
    intro acc hacc
    unfold searchLoop
    omega
  | cons l ls ih =>
    intro acc hacc
    cases hm : matchOf l with
    | some m =>
      simp only [searchLoop, hm]
      split
      · rename_i h
        exact Nat.le_of_eq h.2
      · rename_i h
        apply ih
        have hne : ¬ (acc ++ [m]).length = count := by
          intro hcontra
          exact h ⟨hc, hcontra⟩
        rw [List.length_append] at hne ⊢
        simp at hne ⊢
        omega
    | none =>
      simp only [searchLoop, hm]
      split
      · omega
      · exact ih acc hacc

theorem searchLoop_all (matchOf : List Nat → Option (List Nat)) (count : Nat)
    (P : List Nat → Prop) (hmo : ∀ l m, matchOf l = some m → P m) :
    ∀ (ls acc : List (List Nat)), (∀ m ∈ acc, P m) →
      ∀ m ∈ searchLoop matchOf count ls acc, P m := by
  intro ls
  induction ls with
  | nil =>
    intro acc hacc
    simpa [searchLoop] using hacc
  | cons l ls ih =>
    intro acc hacc
    have hacc' : ∀ x ∈ (match matchOf l with
        | some y => acc ++ [y]
        | none => acc), P x := by
      intro x hmem
      cases hm : matchOf l with
      | some m0 =>
        simp only [hm] at hmem
        rcases List.mem_append.mp hmem with h | h
        · exact hacc x h
        · have hx : x = m0 := by simpa using h
          rw [hx]
          exact hmo l m0 hm
      | none =>
        simp only [hm] at hmem
        exact hacc x hmem
    simp only [searchLoop]
    split
    · exact hacc'
    · exact ih _ hacc'

theorem searchLoop_nomatch (matchOf : List Nat → Option (List Nat)) (count : Nat) :
    ∀ (ls acc : List (List Nat)), (∀ l ∈ ls, matchOf l = none) →
      searchLoop matchOf count ls acc = acc := by
  intro ls
  induction ls with
  | nil => intro acc _; rfl
  | cons l ls ih =>
    intro acc hall
    have hm : matchOf l = none := hall l (by simp)
    simp only [searchLoop, hm]
    split
    · rfl
    · exact ih acc (fun x hx => hall x (by simp [hx]))

theorem reverseBinaryStreamBody_emptyStream (b : Nat) (sep? : Option (List Nat))
    (keep : Bool) (hcp : checkpoints 0 b = []) :
    reverseBinaryStreamBody [] b sep? keep = [] := by
  simp only [reverseBinaryStreamBody, List.length_nil]
  rw [hcp]

theorem text_file_search_all_some_eq (content searchFor : List Nat) (regex : Bool)
    (reM : List Nat → Option (List Nat)) (fwd : Bool) (count : Nat)
    (hpat : searchFor ≠ []) :
    text_file_search_all (some content) searchFor regex reM fwd count =
      (let lines := if fwd then forwardLines content else backwardLines content
       let matchOf : List Nat → Option (List Nat) := fun line =>
         if regex then reM line
         else if findSub searchFor line then some searchFor else none
       let result := searchLoop matchOf count lines []
       if result = [] then none else some result) := by
  unfold text_file_search_all
  rw [if_neg hpat]

theorem option_if_eq_some {c : Prop} [Decidable c] {x l : List (List Nat)}
    (h : (if c then none else some x) = some l) : x = l := by
  by_cases hc : c
  · rw [if_pos hc] at h
    cases h
  · rw [if_neg hc] at h
    exact Option.some.inj h

/-! ### The claims -/

/-- C1 (corrected): as stated, the claim fails: `Reverse_File_Reader` rstrips
every yielded line and re-terminates it with `lines_separator`, so a file
whose last line lacks a trailing newline, or any line with other trailing
whitespace, is altered and the round-trip fails (see the counterexample).
Amended claim: for every text file in which each forward line is content with
no trailing whitespace followed by exactly the `'\n'` separator, fully
consuming `Reverse_File_Reader` with `keep_lines_separator=True` yields the
file's forward line sequence, separators preserved, in exactly reversed order
with line contents unchanged, and reversing the yielded sequence reconstructs
the file's content. -/
theorem claim_C1 (s : List Nat)
    (hlines : ∀ l ∈ slB true s, pyRstrip l ++ [10] = l) :
    reverse_file_reader s [10] true = (slB true s).reverse ∧
    joinL ((reverse_file_reader s [10] true).reverse) = s := by
  have h1 : reverse_file_reader s [10] true = (slB true s).reverse := by
    unfold reverse_file_reader
    rw [reverse_binary_stream_none_default s true]
    conv_rhs => rw [← List.map_id ((slB true s).reverse)]
    apply List.map_congr_left
    intro a ha
    have ha' : a ∈ slB true s := List.mem_reverse.mp ha
    simpa using hlines a ha'
  refine ⟨h1, ?_⟩
  rw [h1, List.reverse_reverse, joinL_slB]

/-- C1 witness: the amended claim evaluated on the file `"ab\ncd\n"`. -/
theorem claim_C1_witness :
    reverse_file_reader [97, 98, 10, 99, 100, 10] [10] true =
      (slB true [97, 98, 10, 99, 100, 10]).reverse ∧
    joinL ((reverse_file_reader [97, 98, 10, 99, 100, 10] [10] true).reverse) =
      [97, 98, 10, 99, 100, 10] :=
  claim_C1 [97, 98, 10, 99, 100, 10] (by decide)

/-- C1 counterexample: on the one-byte file `"a"` (a single line with no
trailing separator) the reader yields `"a\n"`, so the yielded sequence is not
the reversed forward line sequence and reversing it yields `"a\n" ≠ "a"`. -/
theorem claim_C1_counterexample :
    reverse_file_reader [97] [10] true ≠ (slB true [97]).reverse ∧
    joinL ((reverse_file_reader [97] [10] true).reverse) ≠ [97] := by
  constructor
  · decide
  · decide

/-- C2 (corrected): the order property holds unconditionally in the default
separator-set mode: for every byte stream, both keep modes, and every window
size (every explicit `batch_size ≥ 1` as well as the default
`batch_size = stream_size or 1`), `reverse_binary_stream` yields exactly the
forward `splitlines` sequence reversed.  With an explicit separator the
property fails (see the counterexample: a separator falling at a window
boundary with `keep_lines_separator=False` yields a spurious empty line). -/
theorem claim_C2 :
    (∀ (s : List Nat) (keep : Bool) (b : Nat), 1 ≤ b →
      reverse_binary_stream s (some b) none keep = (slB keep s).reverse) ∧
    (∀ (s : List Nat) (keep : Bool),
      reverse_binary_stream s none none keep = (slB keep s).reverse) :=
  ⟨fun s keep b hb => reverse_binary_stream_default s keep b hb,
   fun s keep => reverse_binary_stream_none_default s keep⟩

/-- C2 witness: the order property evaluated on `"a\nb"` with window size 2. -/
theorem claim_C2_witness :
    (1 ≤ 2) ∧
    reverse_binary_stream [97, 10, 98] (some 2) none true =
      (slB true [97, 10, 98]).reverse :=
  ⟨by decide, claim_C2.1 [97, 10, 98] true 2 (by decide)⟩

/-- C2 counterexample: the claim fails for explicit separators.  On the stream
`"ab\ncd"` with the explicit separator `b"\n"`, `keep_lines_separator=False`
and window size 2 the engine yields `[b"cd", b"", b"ab"]` instead of the
reversed forward split `[b"cd", b"ab"]` — a spurious empty line, because the
separator falls at a window boundary; and on `"a\r\nb"` with the explicit
separator `b"\r\n"`, keep and window size 1 it yields the single merged line
`[b"a\r\nb"]` instead of `[b"b", b"a\r\n"]` — the straddle guard only tests
the full separator, so a multi-byte separator split across windows merges the
adjacent lines. -/
theorem claim_C2_counterexample :
    reverse_binary_stream [97, 98, 10, 99, 100] (some 2) (some [10]) false ≠
      (split [97, 98, 10, 99, 100] [10] false).reverse ∧
    reverse_binary_stream [97, 13, 10, 98] (some 1) (some [13, 10]) true ≠
      (split [97, 13, 10, 98] [13, 10] true).reverse := by
  constructor
  · decide
  · decide

/-- C3: whenever a newly read window begins with a separator-set member, the
engine keeps reading and prepending earlier windows until the accumulated
buffer no longer starts with one or the start of the source is reached (first
conjunct, for every stream, window size and position); consequently files
whose LF, CR or CRLF line boundary falls exactly at a window offset — the
CRLF case with window size 3 even splits the separator across two windows —
are read without corrupting, duplicating or dropping any line. -/
theorem claim_C3 :
    (∀ (s : List Nat) (b p : Nat), 1 ≤ b → 1 ≤ p → p ≤ s.length →
      ∃ lo, lo < p ∧
        read_batch s b startsSep p (checkpoints (p - b) b) =
          ((s.take p).drop lo, checkpoints lo b) ∧
        (lo = 0 ∨ startsSep ((s.take p).drop lo) = false)) ∧
    reverse_binary_stream [97, 98, 10, 99, 100] (some 2) none true =
      (slB true [97, 98, 10, 99, 100]).reverse ∧
    reverse_binary_stream [97, 98, 13, 99, 100] (some 2) none true =
      (slB true [97, 98, 13, 99, 100]).reverse ∧
    reverse_binary_stream [97, 98, 13, 10, 99, 100] (some 2) none true =
      (slB true [97, 98, 13, 10, 99, 100]).reverse ∧
    reverse_binary_stream [97, 98, 13, 10, 99, 100] (some 3) none true =
      (slB true [97, 98, 13, 10, 99, 100]).reverse := by
  refine ⟨fun s b p hb hp1 hp => read_batch_spec s b hb p hp1 hp, ?_, ?_, ?_, ?_⟩
  · decide
  · decide
  · decide
  · decide

/-- C3 witness: the straddle-loop specification evaluated on `"ab\ncd"` with
window size 2 at the end position 5. -/
theorem claim_C3_witness :
    ∃ lo, lo < 5 ∧
      read_batch [97, 98, 10, 99, 100] 2 startsSep 5 (checkpoints (5 - 2) 2) =
        ((List.take 5 [97, 98, 10, 99, 100]).drop lo, checkpoints lo 2) ∧
      (lo = 0 ∨ startsSep ((List.take 5 [97, 98, 10, 99, 100]).drop lo) = false) :=
  claim_C3.1 [97, 98, 10, 99, 100] 2 5 (by decide) (by decide) (by decide)

/-- C8: a zero-length source yields the empty sequence and raises no error,
for every separator mode, both keep modes, and every window-size argument
(every explicit positive size as well as the default): the checkpoint
sequence is empty, so the first `next()` raises `StopIteration` and the
generator returns cleanly before any read. -/
theorem claim_C8 :
    (∀ (sep? : Option (List Nat)) (keep : Bool) (b : Nat), 1 ≤ b →
      reverse_binary_stream [] (some b) sep? keep = []) ∧
    (∀ (sep? : Option (List Nat)) (keep : Bool),
      reverse_binary_stream [] none sep? keep = []) := by
  constructor
  · intro sep? keep b _
    exact reverseBinaryStreamBody_emptyStream b sep? keep (checkpoints_zero b)
  · intro sep? keep
    exact reverseBinaryStreamBody_emptyStream 1 sep? keep (checkpoints_zero 1)

/-- C8 witness: the empty stream with an explicit separator and window size 3. -/
theorem claim_C8_witness :
    (1 ≤ 3) ∧ reverse_binary_stream [] (some 3) (some [10]) false = [] :=
  ⟨by decide, claim_C8.1 (some [10]) false 3 (by decide)⟩

/-- C9: the empty pattern is defined to mean "no matches": for every file
(existent or not — the check precedes the `open`), every direction, both
regex modes and every count, `text_file_search_all` with `search_for = ''`
returns `None` immediately and never treats the empty pattern as matching
everything. -/
theorem claim_C9 :
    ∀ (fileContent? : Option (List Nat)) (regex : Bool)
      (reM : List Nat → Option (List Nat)) (fwd : Bool) (count : Nat),
      text_file_search_all fileContent? [] regex reM fwd count = none := by
  intro f? regex reM fwd count
  unfold text_file_search_all
  rw [if_pos rfl]

/-- C4: in the `src/src` modules, the generator body of `reverse_file_reader`
begins with `f = open(filename, 'w')` with the name `filename` unbound, so
pulling the first line raises `NameError` before any I/O on `file_object`
(first conjunct, for every argument combination); consequently every backward
(`search_from_front_to_back=False`) call of `text_file_search_all` in those
modules catches the exception and returns `None` regardless of the file's
contents (second conjunct, also covering the nonexistent-file and
empty-pattern paths, which return `None` as well). -/
theorem claim_C4 :
    (∀ (fileBytes linesSeparator : List Nat) (keep saveMemory : Bool),
      reverse_file_readerV2 fileBytes linesSeparator keep saveMemory =
        GenFirst.raises "NameError") ∧
    (∀ (fileContent? : Option (List Nat)) (searchFor : List Nat) (regex : Bool)
      (reM : List Nat → Option (List Nat)) (count : Nat),
      text_file_search_allV2 fileContent? searchFor regex reM false count = none) := by
  constructor
  · intro _ _ _ _
    rfl
  · intro f? pat regex reM count
    by_cases hpat : pat = []
    · unfold text_file_search_allV2
      rw [if_pos hpat]
    · unfold text_file_search_allV2
      rw [if_neg hpat]
      cases f? with
      | none => rfl
      | some c => rfl

/-- C5 (corrected): as stated, the claim fails: a search that cannot be
performed returns `None`, exactly the same value as the explicit no-match
marker, so the two outcomes are not distinct (see the counterexample).
Amended claim: searching a nonexistent file returns `None` (first conjunct),
and searching an existing readable file for a non-empty literal pattern that
occurs on no visited line also returns `None` (second conjunct); the failure
is signalled only by the printed exception, not by the return value. -/
theorem claim_C5 :
    (∀ (searchFor : List Nat) (regex : Bool) (reM : List Nat → Option (List Nat))
      (fwd : Bool) (count : Nat),
      text_file_search_all none searchFor regex reM fwd count = none) ∧
    (∀ (content searchFor : List Nat) (reM : List Nat → Option (List Nat))
      (fwd : Bool) (count : Nat),
      (∀ l ∈ (if fwd then forwardLines content else backwardLines content),
        findSub searchFor l = false) →
      text_file_search_all (some content) searchFor false reM fwd count = none) := by
  constructor
  · intro pat regex reM fwd count
    by_cases hpat : pat = []
    · unfold text_file_search_all
      rw [if_pos hpat]
    · unfold text_file_search_all
      rw [if_neg hpat]
  · intro content pat reM fwd count habsent
    by_cases hpat : pat = []
    · unfold text_file_search_all
      rw [if_pos hpat]
    · rw [text_file_search_all_some_eq content pat false reM fwd count hpat]
      have hloop : searchLoop
          (fun line => if false then reM line
            else if findSub pat line then some pat else none) count
          (if fwd then forwardLines content else backwardLines content) [] = [] := by
        apply searchLoop_nomatch
        intro l hl
        rw [if_neg (by simp), habsent l hl]
        simp
      simp only []
      rw [hloop]
      simp

/-- C5 witness: the amended claim evaluated concretely — searching the
nonexistent file and searching the file `"a"` for the absent pattern `"b"`
both return `None`. -/
theorem claim_C5_witness :
    text_file_search_all none [98] false reDigitPlus true 0 = none ∧
    text_file_search_all (some [97]) [98] false reDigitPlus true 0 = none :=
  ⟨claim_C5.1 [98] false reDigitPlus true 0,
   claim_C5.2 [97] [98] reDigitPlus true 0 (by decide)⟩

/-- C5 counterexample: no-match and cannot-perform are NOT distinct — on the
readable file `"a"` with the absent pattern `"b"` the search returns `None`,
and on a nonexistent file it returns the very same `None`. -/
theorem claim_C5_counterexample :
    text_file_search_all (some [97]) [98] false reDigitPlus true 0 = none ∧
    text_file_search_all none [98] false reDigitPlus true 0 = none := by
  constructor
  · decide
  · decide

/-- C6: for every file and every count `n > 0`, `Text_File_Search_All` stops
as soon as `n` matches are recorded and returns at most `n` matches (first
conjunct); concretely, a backward literal search for `"cat"` with `count = 1`
on the 5-line file `"a\ncatb\nc\ncatd\ne\n"` (pattern on lines 2 and 4)
returns exactly `["cat"]`, and the first backward-visited line containing the
pattern is line 4's `"catd\n"` (remaining conjuncts). -/
theorem claim_C6 :
    (∀ (fileContent? : Option (List Nat)) (searchFor : List Nat) (regex : Bool)
      (reM : List Nat → Option (List Nat)) (fwd : Bool) (n : Nat)
      (l : List (List Nat)), 0 < n →
      text_file_search_all fileContent? searchFor regex reM fwd n = some l →
      l.length ≤ n) ∧
    text_file_search_all
      (some [97, 10, 99, 97, 116, 98, 10, 99, 10, 99, 97, 116, 100, 10, 101, 10])
      [99, 97, 116] false reDigitPlus false 1 = some [[99, 97, 116]] ∧
    (backwardLines [97, 10, 99, 97, 116, 98, 10, 99, 10, 99, 97, 116, 100, 10, 101, 10]).find?
      (fun l => findSub [99, 97, 116] l) = some [99, 97, 116, 100, 10] := by
  refine ⟨?_, by decide, by decide⟩
  intro f? pat regex reM fwd n l hn h
  by_cases hpat : pat = []
  · unfold text_file_search_all at h
    rw [if_pos hpat] at h
    cases h
  · cases f? with
    | none =>
      unfold text_file_search_all at h
      rw [if_neg hpat] at h
      simp at h
    | some content =>
      rw [text_file_search_all_some_eq content pat regex reM fwd n hpat] at h
      simp only [] at h
      have hres := option_if_eq_some h
      rw [← hres]
      exact searchLoop_length_le _ n hn _ [] (by simpa using hn)

/-- C6 witness: the count bound applied at the concrete backward search of the
5-line file with `count = 1`. -/
theorem claim_C6_witness :
    ([[99, 97, 116]] : List (List Nat)).length ≤ 1 :=
  claim_C6.1
    (some [97, 10, 99, 97, 116, 98, 10, 99, 10, 99, 97, 116, 100, 10, 101, 10])
    [99, 97, 116] false reDigitPlus false 1 [[99, 97, 116]] (by decide) (by decide)

/-- C7: in literal mode every recorded match equals the search pattern itself
(first conjunct, for every file, direction and count); in regex mode the
recorded match is the first matched substring within the line — the pattern
`\d+` (bytes `[92, 100, 43]`, matcher `reDigitPlus`) against the single-line
file `"id=42 qty=7"` records `"42"` (bytes `[52, 50]`), not `"7"` (second
conjunct); and a literal match is recorded once per visited line containing
the pattern: the single-line file `"catcat\n"` records `"cat"` once (third
conjunct). -/
theorem claim_C7 :
    (∀ (fileContent? : Option (List Nat)) (searchFor : List Nat)
      (reM : List Nat → Option (List Nat)) (fwd : Bool) (count : Nat)
      (l : List (List Nat)),
      text_file_search_all fileContent? searchFor false reM fwd count = some l →
      ∀ m ∈ l, m = searchFor) ∧
    text_file_search_all (some [105, 100, 61, 52, 50, 32, 113, 116, 121, 61, 55])
      [92, 100, 43] true reDigitPlus true 0 = some [[52, 50]] ∧
    text_file_search_all (some [99, 97, 116, 99, 97, 116, 10]) [99, 97, 116]
      false reDigitPlus true 0 = some [[99, 97, 116]] := by
  refine ⟨?_, by decide, by decide⟩
  intro f? pat reM fwd count l h
  by_cases hpat : pat = []
  · unfold text_file_search_all at h
    rw [if_pos hpat] at h
    cases h
  · cases f? with
    | none =>
      unfold text_file_search_all at h
      rw [if_neg hpat] at h
      simp at h
    | some content =>
      rw [text_file_search_all_some_eq content pat false reM fwd count hpat] at h
      simp only [] at h
      have hres := option_if_eq_some h
      rw [← hres]
      apply searchLoop_all _ count (fun z => z = pat) ?_ _ [] (by simp)
      intro l0 m0 hm0
      by_cases hf : findSub pat l0 = true
      · rw [if_pos hf] at hm0
        exact (Option.some.inj hm0).symm
      · rw [if_neg hf] at hm0
        cases hm0

/-- C7 witness: the literal-mode property applied at a concrete forward search
of the file `"cat"` for the pattern `"cat"`. -/
theorem claim_C7_witness :
    ([99, 97, 116] : List Nat) = [99, 97, 116] :=
  claim_C7.1 (some [99, 97, 116]) [99, 97, 116] reDigitPlus true 0
    [[99, 97, 116]] (by decide) [99, 97, 116] (by decide)

/-- C10: `text_file_cleanup` of `src/src/SpiderUtilLib/FileUtils.py` with
`preserve_original_file=False` on an existing readable file always returns
`False` — `shutil.remove` does not exist, so the cleanup step raises
`AttributeError`, which is caught — even though the replacement pass has
completed and the file has been rewritten; the `file + '.origin'` copy is left
on disk (first conjunct, for every content, pattern, replacement and both
regex modes).  Concretely, cleaning `"abc\n"` of `"b"` returns `False` yet
leaves the file rewritten to `"ac\n" ≠ "abc\n"`, with the original preserved
in `.origin` — a `False` return does not imply the file state is unchanged. -/
theorem claim_C10 :
    (∀ (content searchFor replaceAs : List Nat) (regex : Bool)
      (reSub : List Nat → List Nat),
      (text_file_cleanup content searchFor replaceAs regex reSub false).retVal = false ∧
      (text_file_cleanup content searchFor replaceAs regex reSub false).originContent =
        some content ∧
      (text_file_cleanup content searchFor replaceAs regex reSub false).fileContent =
        joinL ((forwardLines content).map
          (fun line => if regex then reSub line
                       else pyReplace searchFor replaceAs line))) ∧
    (text_file_cleanup [97, 98, 99, 10] [98] [] false id false).retVal = false ∧
    (text_file_cleanup [97, 98, 99, 10] [98] [] false id false).fileContent = [97, 99, 10] ∧
    (text_file_cleanup [97, 98, 99, 10] [98] [] false id false).fileContent ≠ [97, 98, 99, 10] ∧
    (text_file_cleanup [97, 98, 99, 10] [98] [] false id false).originContent =
      some [97, 98, 99, 10] := by
  refine ⟨?_, by decide, by decide, by decide, by decide⟩
  intro content sf ra regex reSub
  exact ⟨rfl, rfl, rfl⟩

end SpiderUtilLib
